import Mathlib

/-!
Shallow embedding of the software rasterizer in src/src/main.rs
(Framebuffer, Uniforms, render and its composite loop), together with
spec-modelled definitions for the crate modules that are not part of the
sources (triangle.rs, color.rs, vertex.rs, fragment.rs).

Floating-point values that only flow through comparisons and stores are
modelled by the type F below: an IEEE-style value that is NaN, one of the
two infinities, or a finite rational. Arithmetic on coordinates is
modelled exactly over the rationals.
-/

namespace Rasterizer

/-- IEEE-754-style scalar as used for f32 depth and coordinate values:
NaN, the two infinities, or a finite value (modelled exactly as a
rational). -/
inductive F : Type where
  | nan : F
  | ninf : F
  | pinf : F
  | fin : ℚ → F
deriving DecidableEq, Repr

/-- Strict less-than on F with IEEE-754 semantics: every comparison
involving NaN is false; -inf is below everything else; +inf is above
everything else; finite values compare as rationals. This models the
Rust expression `fragment.depth < z_buffer[index]` on f32. -/
def flt : F → F → Bool
  | F.nan, _ => false
  | _, F.nan => false
  | F.ninf, F.ninf => false
  | F.ninf, _ => true
  | _, F.ninf => false
  | F.pinf, _ => false
  | F.fin _, F.pinf => true
  | F.fin a, F.fin b => decide (a < b)

/-- Non-strict comparison derived from flt, used to state minimality. -/
def fle (a b : F) : Bool := flt a b || a == b

/-- usize::MAX on the 64-bit targets the crate builds for. -/
def USIZE_MAX : Nat := 2 ^ 64 - 1

/-- Rust saturating float-to-usize cast (`as usize`, Rust >= 1.45):
NaN and every negative value go to 0, +inf goes to usize::MAX, finite
positive values truncate toward zero and saturate at usize::MAX. This
models `fragment.position.x as usize` in render. -/
def F.toUsize : F → Nat
  | F.nan => 0
  | F.ninf => 0
  | F.pinf => USIZE_MAX
  | F.fin q => if q ≤ 0 then 0 else min q.floor.toNat USIZE_MAX

/-- Three-channel colour. The channels are f32 in the crate; claims only
use colours through the packed value, so the channels are modelled as
exact rationals. -/
structure Color : Type where
  r : ℚ
  g : ℚ
  b : ℚ
deriving DecidableEq, Repr

/-- Scale one colour channel to an integer byte, clamping to [0, 255].
Modelled from the spec: color.rs is not under src/; the spec fixes that
out-of-range channels are clamped to [0,255] during packing (saturating
conversion), with the round/truncate policy left to the implementation;
truncation toward zero is chosen here. -/
def chan255 (q : ℚ) : Nat :=
  if q ≤ 0 then 0 else min (q * 255).floor.toNat 255

/-- Modelled from the spec: color.rs is not under src/. Packs a colour
to the 0x00RRGGBB integer pixel format described in the spec. -/
def Color.to_hex (c : Color) : Nat :=
  chan255 c.r * 2 ^ 16 + chan255 c.g * 2 ^ 8 + chan255 c.b

/-- Vector with three rational components (nalgebra_glm::Vec3). -/
structure Vec3 : Type where
  x : ℚ
  y : ℚ
  z : ℚ
deriving DecidableEq, Repr

/-- Vector with four rational components (nalgebra_glm::Vec4). -/
structure Vec4 : Type where
  x : ℚ
  y : ℚ
  z : ℚ
  w : ℚ
deriving DecidableEq, Repr

/-- Square 4x4 matrix over exact rationals (nalgebra_glm::Mat4), stored
as a function of (row, column). -/
def Mat4 : Type := Fin 4 → Fin 4 → ℚ

/-- Matrix-matrix product, as nalgebra's Mul for Mat4. -/
def Mat4.mul (A B : Mat4) : Mat4 := fun i j =>
  A i 0 * B 0 j + A i 1 * B 1 j + A i 2 * B 2 j + A i 3 * B 3 j

/-- Matrix-vector product, as nalgebra's Mat4 * Vec4. -/
def Mat4.mulVec (A : Mat4) (v : Vec4) : Vec4 :=
  { x := A 0 0 * v.x + A 0 1 * v.y + A 0 2 * v.z + A 0 3 * v.w
    y := A 1 0 * v.x + A 1 1 * v.y + A 1 2 * v.z + A 1 3 * v.w
    z := A 2 0 * v.x + A 2 1 * v.y + A 2 2 * v.z + A 2 3 * v.w
    w := A 3 0 * v.x + A 3 1 * v.y + A 3 2 * v.z + A 3 3 * v.w }

/-- nalgebra's Mat4::new_translation: the identity with the vector in the
last column. -/
def Mat4.new_translation (t : Vec3) : Mat4 := fun i j =>
  if j = 3 then (if i = 0 then t.x else if i = 1 then t.y else if i = 2 then t.z else 1)
  else if i = j then 1 else 0

/-- nalgebra's Mat4::new_nonuniform_scaling: the diagonal matrix
diag(sx, sy, sz, 1). -/
def Mat4.new_nonuniform_scaling (sx sy sz : ℚ) : Mat4 := fun i j =>
  if i = j then (if i = 0 then sx else if i = 1 then sy else if i = 2 then sz else 1)
  else 0

/-- Per-frame uniforms (main.rs lines 51-53). -/
structure Uniforms : Type where
  model_matrix : Mat4

/-- Uniforms::new (main.rs lines 56-61): model matrix =
new_translation(translation) * rotation * new_nonuniform_scaling(scale, scale, scale). -/
def Uniforms.new (translation : Vec3) (scale : ℚ) ( rotation : Mat4) : Uniforms :=
  { model_matrix :=
      Mat4.mul (Mat4.mul (Mat4.new_translation translation) rotation)
        (Mat4.new_nonuniform_scaling scale scale scale) }

/-- A renderable vertex. vertex.rs is not under src/; the fields are the
ones the spec lists and the ones main.rs uses: object-space position,
colour, and the per-frame transformed position. -/
structure Vertex : Type where
  position : Vec3
  color : Color
  transformed_position : Vec3
deriving DecidableEq, Repr

/-- The transform stage applied to one vertex (render, main.rs lines
70-83): build the homogeneous vector (position, 1), multiply by the model
matrix, keep the first three components; position and colour are copied
from the input vertex and every other field keeps its old value. -/
def transformVertex (u : Uniforms) (v : Vertex) : Vertex :=
  let position := Vec4.mk v.position.x v.position.y v.position.z 1
  let transformed := Mat4.mulVec u.model_matrix position
  { v with
    position := v.position
    color := v.color
    transformed_position := Vec3.mk transformed.x transformed.y transformed.z }

/-- The transform stage of render over the whole vertex array. -/
def transformedVertices (u : Uniforms) (vertex_array : List Vertex) : List Vertex :=
  vertex_array.map (transformVertex u)

/-- A rasterizer output fragment. fragment.rs is not under src/; the
fields are the ones main.rs reads (position.x, position.y as f32 values
that get cast to usize, an f32 depth, and a colour that is packed with
to_hex) as the spec describes them. -/
structure Fragment : Type where
  position : F × F
  depth : F
  color : Color
deriving DecidableEq, Repr

/-- Framebuffer (main.rs lines 22-27): width, height and the flat
row-major pixel buffer of packed u32 colours. -/
structure Framebuffer : Type where
  width : Nat
  height : Nat
  buffer : List Nat
deriving DecidableEq, Repr

/-- Framebuffer::new (main.rs lines 30-36): a width*height buffer of
zeros. -/
def Framebuffer.new (width height : Nat) : Framebuffer :=
  { width := width, height := height, buffer := List.replicate (width * height) 0 }

/-- Framebuffer::set_current_color (main.rs lines 38-42): write the
packed colour at row-major position y*width+x only when x < width and
y < height, otherwise do nothing. The Rust body indexes the Vec, which
panics when the buffer is shorter than the index it was told to reach;
a panic is modelled as none. -/
def Framebuffer.set_current_color (fb : Framebuffer) (x y : Nat) (color : Nat) :
    Option Framebuffer :=
  if x < fb.width ∧ y < fb.height then
    if y * fb.width + x < fb.buffer.length then
      some { fb with buffer := fb.buffer.set (y * fb.width + x) color }
    else none
  else some fb

/-- Framebuffer::clear (main.rs lines 44-48): set every pixel. -/
def Framebuffer.clear (fb : Framebuffer) (color : Nat) : Framebuffer :=
  { fb with buffer := fb.buffer.map (fun _ => color) }

/-- The pixel index a fragment addresses in the composite loop (main.rs
lines 94-98): cast position.x and position.y to usize; when both pass
the bounds check the fragment addresses row-major index y*width+x,
otherwise none. -/
def targetIdx (width height : Nat) (frag : Fragment) : Option Nat :=
  if F.toUsize frag.position.1 < width ∧ F.toUsize frag.position.2 < height then
    some (F.toUsize frag.position.2 * width + F.toUsize frag.position.1)
  else none

/-- The body of the composite loop for one fragment (main.rs lines
93-106): cast the position to usize coordinates; if in bounds, read the
z-buffer at y*width+x (a panic when the index is outside the z-buffer is
modelled as none), compare the fragment depth with strict less-than, and
on success store the depth and write the packed colour through
set_current_color; in every other case leave both buffers unchanged. -/
def compositeFragment (fb : Framebuffer) (zb : List F) (frag : Fragment) :
    Option (Framebuffer × List F) :=
  if F.toUsize frag.position.1 < fb.width ∧ F.toUsize frag.position.2 < fb.height then
    match zb[F.toUsize frag.position.2 * fb.width + F.toUsize frag.position.1]? with
    | none => none
    | some zv =>
      if flt frag.depth zv then
        (fb.set_current_color (F.toUsize frag.position.1) (F.toUsize frag.position.2)
            frag.color.to_hex).map
          (fun fb2 =>
            (fb2, zb.set (F.toUsize frag.position.2 * fb.width + F.toUsize frag.position.1)
              frag.depth))
      else some (fb, zb)
  else some (fb, zb)

/-- The composite loop over a list of fragments, threading the
framebuffer and z-buffer. -/
def compositeList (fb : Framebuffer) (zb : List F) :
    List Fragment → Option (Framebuffer × List F)
  | [] => some (fb, zb)
  | frag :: rest =>
    (compositeFragment fb zb frag).bind fun p => compositeList p.1 p.2 rest

/-- Rust slice::chunks(3): consecutive groups of three, with a final
shorter group when the length is not a multiple of three. -/
def chunks3 : List α → List (List α)
  | [] => []
  | a :: b :: c :: rest => [a, b, c] :: chunks3 rest
  | rest => [rest]

/-- The groups the render loop actually rasterizes (main.rs lines
85-91): the chunks of exactly three vertices; shorter trailing chunks
fail the length test and are skipped. -/
def triangleGroups (l : List Vertex) : List (Vertex × Vertex × Vertex) :=
  (chunks3 l).filterMap fun g =>
    match g with
    | [a, b, c] => some (a, b, c)
    | _ => none

/-- Modelled from the spec: triangle.rs is not under src/. Triangle
rasterizer per spec section 4.2: bounding box of the three projected
points clipped to the non-negative integer pixel range; for each integer
pixel in the box compute barycentric coordinates in the xy-plane; the
pixel is covered when all three weights are non-negative; depth and
colour are the barycentric interpolation of the vertices' z components
and colours; a degenerate triangle (zero signed area denominator) yields
no fragments and performs no division. -/
def triangle (v1 v2 v3 : Vertex) : List Fragment :=
  let a := v1.transformed_position
  let b := v2.transformed_position
  let c := v3.transformed_position
  let denom := (b.y - c.y) * (a.x - c.x) + (c.x - b.x) * (a.y - c.y)
  if denom = 0 then []
  else
    let xmin : Nat := (min a.x (min b.x c.x)).floor.toNat
    let ymin : Nat := (min a.y (min b.y c.y)).floor.toNat
    let xmax : Nat := (max a.x (max b.x c.x)).ceil.toNat
    let ymax : Nat := (max a.y (max b.y c.y)).ceil.toNat
    ((List.range (ymax + 1 - ymin)).map (fun dy => ymin + dy)).flatMap fun py =>
      ((List.range (xmax + 1 - xmin)).map (fun dx => xmin + dx)).filterMap fun px =>
        let qx : ℚ := px
        let qy : ℚ := py
        let w1 := ((b.y - c.y) * (qx - c.x) + (c.x - b.x) * (qy - c.y)) / denom
        let w2 := ((c.y - a.y) * (qx - c.x) + (a.x - c.x) * (qy - c.y)) / denom
        let w3 := 1 - w1 - w2
        if 0 ≤ w1 ∧ 0 ≤ w2 ∧ 0 ≤ w3 then
          some { position := (F.fin qx, F.fin qy)
                 depth := F.fin (w1 * a.z + w2 * b.z + w3 * c.z)
                 color := { r := w1 * v1.color.r + w2 * v2.color.r + w3 * v3.color.r
                            g := w1 * v1.color.g + w2 * v2.color.g + w3 * v3.color.g
                            b := w1 * v1.color.b + w2 * v2.color.b + w3 * v3.color.b } }
        else none

/-- The rasterize-and-composite loop of render (main.rs lines 85-108):
for each chunk of exactly three transformed vertices, rasterize it and
composite its fragments before moving to the next chunk. -/
def renderGroups (fb : Framebuffer) (zb : List F) :
    List (Vertex × Vertex × Vertex) → Option (Framebuffer × List F)
  | [] => some (fb, zb)
  | g :: rest =>
    (compositeList fb zb (triangle g.1 g.2.1 g.2.2)).bind fun p => renderGroups p.1 p.2 rest

/-- render (main.rs lines 64-109): transform every vertex, split the
result into consecutive groups of three, rasterize each full group and
composite its fragments against the z-buffer and framebuffer. -/
def render (fb : Framebuffer) (zb : List F) (u : Uniforms)
    (vertex_array : List Vertex) : Option (Framebuffer × List F) :=
  renderGroups fb zb (triangleGroups (transformedVertices u vertex_array))

/-- All fragments one render call produces, in processing order. -/
def renderFragments (u : Uniforms) (vertex_array : List Vertex) : List Fragment :=
  ((triangleGroups (transformedVertices u vertex_array)).map
    (fun g => triangle g.1 g.2.1 g.2.2)).flatten

/-- The depths of the fragments of a list that address pixel index i. -/
def depthsAt (width height : Nat) (i : Nat) (frags : List Fragment) : List F :=
  frags.filterMap fun f => if targetIdx width height f = some i then some f.depth else none

/-- One step of the z-buffer evolution at a fixed pixel: keep the stored
depth unless the incoming depth passes the strict less-than test. -/
def dstep (z d : F) : F := if flt d z then d else z

/-- The value stored at index i of a z-buffer, with NaN standing for an
out-of-range read (only used to state theorems uniformly; an actual
out-of-range read is a panic and is modelled as none elsewhere). -/
def zAt (zb : List F) (i : Nat) : F := (zb[i]?).getD F.nan

lemma flt_nan_left (z : F) : flt F.nan z = false := by cases z <;> rfl

lemma flt_nan_right (a : F) : flt a F.nan = false := by cases a <;> rfl

lemma flt_irrefl (a : F) : flt a a = false := by
  cases a <;> simp [flt]

lemma flt_trans {a b c : F} (h1 : flt a b = true) (h2 : flt b c = true) :
    flt a c = true := by
  cases a <;> cases b <;> cases c <;> simp_all [flt]
  exact h1.trans h2

lemma flt_total {a b : F} (ha : a ≠ F.nan) (hb : b ≠ F.nan) :
    flt a b = true ∨ flt b a = true ∨ a = b := by
  cases a <;> cases b <;> simp_all [flt]
  rename_i p q
  rcases lt_trichotomy p q with h | h | h <;> tauto

lemma fle_refl (a : F) : fle a a = true := by
  simp [fle]

lemma flt_fle {a b : F} (h : flt a b = true) : fle a b = true := by
  simp [fle, h]

lemma fle_of_not_flt {a b : F} (ha : a ≠ F.nan) (hb : b ≠ F.nan)
    (h : flt a b = false) : fle b a = true := by
  rcases flt_total ha hb with h1 | h1 | h1
  · rw [h1] at h; cases h
  · exact flt_fle h1
  · subst h1; exact fle_refl a

lemma fle_trans {a b c : F} (ha : a ≠ F.nan) (hb : b ≠ F.nan) (hc : c ≠ F.nan)
    (h1 : fle a b = true) (h2 : fle b c = true) : fle a c = true := by
  simp only [fle, Bool.or_eq_true, beq_iff_eq] at h1 h2 ⊢
  rcases h1 with h1 | h1
  · rcases h2 with h2 | h2
    · exact Or.inl (flt_trans h1 h2)
    · subst h2; exact Or.inl h1
  · subst h1; exact h2

lemma dstep_ne_nan {z d : F} (hz : z ≠ F.nan) (hd : d ≠ F.nan) :
    dstep z d ≠ F.nan := by
  unfold dstep; split <;> assumption

lemma dstep_mem (z d : F) : dstep z d = z ∨ dstep z d = d := by
  unfold dstep; split
  · exact Or.inr rfl
  · exact Or.inl rfl

lemma fle_dstep (z d : F) (hz : z ≠ F.nan) : fle (dstep z d) z = true := by
  unfold dstep; split
  · exact flt_fle (by assumption)
  · exact fle_refl z

/-- Folding dstep over a list of non-NaN depths from a non-NaN start
yields a value that is the start or a list element, and is below the
start and below every list element. -/
lemma foldl_dstep_general (ds : List F) (z : F) (hz : z ≠ F.nan)
    (hds : ∀ d ∈ ds, d ≠ F.nan) :
    (ds.foldl dstep z = z ∨ ds.foldl dstep z ∈ ds) ∧
      fle (ds.foldl dstep z) z = true ∧
      ∀ d ∈ ds, fle (ds.foldl dstep z) d = true := by
  induction ds generalizing z with
  | nil => exact ⟨Or.inl rfl, fle_refl z, by simp⟩
  | cons d t ih =>
    have hd : d ≠ F.nan := hds d (by simp)
    have ht : ∀ x ∈ t, x ≠ F.nan := fun x hx => hds x (by simp [hx])
    have hz2 : dstep z d ≠ F.nan := dstep_ne_nan hz hd
    obtain ⟨hmem, hlez, hall⟩ := ih (dstep z d) hz2 ht
    have hres : (d :: t).foldl dstep z = t.foldl dstep (dstep z d) := rfl
    have hresn : t.foldl dstep (dstep z d) ≠ F.nan := by
      rcases hmem with h | h
      · rw [h]; exact hz2
      · exact ht _ h
    have hlez2 : fle (t.foldl dstep (dstep z d)) z = true :=
      fle_trans hresn hz2 hz hlez (fle_dstep z d hz)
    have hled : fle (t.foldl dstep (dstep z d)) d = true := by
      unfold dstep at hlez
      by_cases hc : flt d z = true
      · simpa [dstep, hc] using hlez
      · have hc2 : flt d z = false := by
          cases h : flt d z
          · rfl
          · exact absurd h hc
        have : fle z d = true := fle_of_not_flt hd hz hc2
        exact fle_trans hresn hz hd hlez2 this
    refine ⟨?_, hlez2, ?_⟩
    · rw [hres]
      rcases hmem with h | h
      · rcases dstep_mem z d with h2 | h2
        · rw [h, h2]; exact Or.inl rfl
        · rw [h, h2]; exact Or.inr (by simp)
      · exact Or.inr (by simp [h])
    · intro x hx
      rcases List.mem_cons.mp hx with h | h
      · subst h; rw [hres]; exact hled
      · rw [hres]; exact hall x h

lemma targetIdx_some_unfold {width height : Nat} {frag : Fragment} {i : Nat}
    (h : targetIdx width height frag = some i) :
    F.toUsize frag.position.1 < width ∧ F.toUsize frag.position.2 < height ∧
      i = F.toUsize frag.position.2 * width + F.toUsize frag.position.1 := by
  unfold targetIdx at h
  split at h
  · rename_i hb
    cases h
    exact ⟨hb.1, hb.2, rfl⟩
  · cases h

lemma targetIdx_lt_area {width height : Nat} {frag : Fragment} {i : Nat}
    (h : targetIdx width height frag = some i) : i < width * height := by
  obtain ⟨hx, hy, hi⟩ := targetIdx_some_unfold h
  subst hi
  calc F.toUsize frag.position.2 * width + F.toUsize frag.position.1
      < F.toUsize frag.position.2 * width + width := Nat.add_lt_add_left hx _
    _ = (F.toUsize frag.position.2 + 1) * width := by ring
    _ ≤ height * width := Nat.mul_le_mul_right _ (Nat.succ_le_of_lt hy)
    _ = width * height := Nat.mul_comm _ _

lemma set_current_color_in_bounds {fb : Framebuffer} {x y : Nat} (color : Nat)
    (hx : x < fb.width) (hy : y < fb.height) (hb : y * fb.width + x < fb.buffer.length) :
    fb.set_current_color x y color =
      some { fb with buffer := fb.buffer.set (y * fb.width + x) color } := by
  unfold Framebuffer.set_current_color
  rw [if_pos ⟨hx, hy⟩, if_pos hb]

/-- One composite step at an out-of-bounds fragment: no change. -/
lemma compositeFragment_oob {fb : Framebuffer} {zb : List F} {frag : Fragment}
    (h : targetIdx fb.width fb.height frag = none) :
    compositeFragment fb zb frag = some (fb, zb) := by
  unfold targetIdx at h
  unfold compositeFragment
  split at h
  · cases h
  · rename_i hb
    rw [if_neg hb]

/-- One composite step at an in-bounds fragment, reduced to the z-buffer
read, the depth test, and the conditional writes. -/
lemma compositeFragment_in_bounds {fb : Framebuffer} {zb : List F} {frag : Fragment}
    {i : Nat} (ht : targetIdx fb.width fb.height frag = some i) :
    compositeFragment fb zb frag =
      match zb[i]? with
      | none => none
      | some zv =>
        if flt frag.depth zv then
          (fb.set_current_color (F.toUsize frag.position.1) (F.toUsize frag.position.2)
              frag.color.to_hex).map (fun fb2 => (fb2, zb.set i frag.depth))
        else some (fb, zb) := by
  obtain ⟨hx, hy, hi⟩ := targetIdx_some_unfold ht
  subst hi
  unfold compositeFragment
  rw [if_pos ⟨hx, hy⟩]

lemma compositeFragment_fail {fb : Framebuffer} {zb : List F} {frag : Fragment} {i : Nat}
    {zv : F} (ht : targetIdx fb.width fb.height frag = some i) (hz : zb[i]? = some zv)
    (hd : flt frag.depth zv = false) :
    compositeFragment fb zb frag = some (fb, zb) := by
  rw [compositeFragment_in_bounds ht, hz]
  simp [hd]

lemma compositeFragment_pass {fb : Framebuffer} {zb : List F} {frag : Fragment} {i : Nat}
    {zv : F} (ht : targetIdx fb.width fb.height frag = some i) (hz : zb[i]? = some zv)
    (hd : flt frag.depth zv = true) (hb : i < fb.buffer.length) :
    compositeFragment fb zb frag =
      some ({ fb with buffer := fb.buffer.set i frag.color.to_hex }, zb.set i frag.depth) := by
  obtain ⟨hx, hy, hi⟩ := targetIdx_some_unfold ht
  rw [compositeFragment_in_bounds ht, hz]
  have hsc := @set_current_color_in_bounds fb (F.toUsize frag.position.1)
    (F.toUsize frag.position.2) frag.color.to_hex hx hy (by rw [← hi]; exact hb)
  simp only [hd, if_true]
  rw [← hi] at hsc
  rw [hsc]
  rfl

/-- A successful composite step preserves the dimensions of both
buffers. -/
lemma compositeFragment_dims {fb fb2 : Framebuffer} {zb zb2 : List F} {frag : Fragment}
    (h : compositeFragment fb zb frag = some (fb2, zb2)) :
    fb2.width = fb.width ∧ fb2.height = fb.height ∧
      fb2.buffer.length = fb.buffer.length ∧ zb2.length = zb.length := by
  rcases ht : targetIdx fb.width fb.height frag with _ | i
  · rw [compositeFragment_oob ht] at h
    cases h
    exact ⟨rfl, rfl, rfl, rfl⟩
  · rw [compositeFragment_in_bounds ht] at h
    rcases hz : zb[i]? with _ | zv
    · rw [hz] at h; cases h
    · rw [hz] at h
      by_cases hd : flt frag.depth zv = true
      · rcases hsc : fb.set_current_color (F.toUsize frag.position.1)
            (F.toUsize frag.position.2) frag.color.to_hex with _ | fb3
        · rw [hsc] at h; simp [hd] at h
        · rw [hsc] at h
          simp only [hd, if_true, Option.map_some] at h
          cases h
          unfold Framebuffer.set_current_color at hsc
          split at hsc
          · split at hsc
            · cases hsc
              simp [List.length_set]
            · cases hsc
          · cases hsc
            exact ⟨rfl, rfl, rfl, by simp [List.length_set]⟩
      · simp only [hd, if_false] at h
        rw [if_neg (by simp [hd])] at h
        cases h
        exact ⟨rfl, rfl, rfl, rfl⟩

/-- Under the length preconditions one composite step always succeeds. -/
lemma compositeFragment_total {fb : Framebuffer} {zb : List F} (frag : Fragment)
    (hfb : fb.buffer.length = fb.width * fb.height)
    (hzb : fb.width * fb.height ≤ zb.length) :
    ∃ fb2 zb2, compositeFragment fb zb frag = some (fb2, zb2) := by
  rcases ht : targetIdx fb.width fb.height frag with _ | i
  · exact ⟨fb, zb, compositeFragment_oob ht⟩
  · have hi : i < zb.length := lt_of_lt_of_le (targetIdx_lt_area ht) hzb
    have hz : zb[i]? = some (zb.get ⟨i, hi⟩) := List.getElem?_eq_getElem hi
    by_cases hd : flt frag.depth (zb.get ⟨i, hi⟩) = true
    · refine ⟨_, _, compositeFragment_pass ht hz hd ?_⟩
      rw [hfb]
      exact targetIdx_lt_area ht
    · exact ⟨fb, zb, compositeFragment_fail ht hz (by simpa using hd)⟩

/-- Pointwise effect of a successful composite step at indices the
fragment does not address: both buffers are unchanged there. -/
lemma compositeFragment_untouched {fb fb2 : Framebuffer} {zb zb2 : List F} {frag : Fragment}
    {i : Nat} (h : compositeFragment fb zb frag = some (fb2, zb2))
    (ht : targetIdx fb.width fb.height frag ≠ some i) :
    fb2.buffer[i]? = fb.buffer[i]? ∧ zb2[i]? = zb[i]? := by
  rcases htj : targetIdx fb.width fb.height frag with _ | j
  · rw [compositeFragment_oob htj] at h
    cases h
    exact ⟨rfl, rfl⟩
  · have hij : j ≠ i := fun he => ht (he ▸ htj)
    rw [compositeFragment_in_bounds htj] at h
    rcases hz : zb[j]? with _ | zv
    · rw [hz] at h; cases h
    · rw [hz] at h
      by_cases hd : flt frag.depth zv = true
      · rcases hsc : fb.set_current_color (F.toUsize frag.position.1)
            (F.toUsize frag.position.2) frag.color.to_hex with _ | fb3
        · rw [hsc] at h; simp [hd] at h
        · rw [hsc] at h
          simp only [hd, if_true, Option.map_some] at h
          cases h
          unfold Framebuffer.set_current_color at hsc
          obtain ⟨hx, hy, hidx⟩ := targetIdx_some_unfold htj
          rw [if_pos ⟨hx, hy⟩] at hsc
          split at hsc
          · cases hsc
            refine ⟨?_, List.getElem?_set_ne hij⟩
            simp only []
            exact List.getElem?_set_ne (by rw [← hidx]; exact hij)
          · cases hsc
      · simp only [hd, if_false] at h
        rw [if_neg (by simp [hd])] at h
        cases h
        exact ⟨rfl, rfl⟩

/-- Pointwise effect of a successful composite step at the index the
fragment addresses: the z-buffer value evolves by dstep, and when the
depth test fails nothing changes at that index. -/
lemma compositeFragment_touched {fb fb2 : Framebuffer} {zb zb2 : List F} {frag : Fragment}
    {i : Nat} (h : compositeFragment fb zb frag = some (fb2, zb2))
    (ht : targetIdx fb.width fb.height frag = some i) :
    zAt zb2 i = dstep (zAt zb i) frag.depth ∧
      (flt frag.depth (zAt zb i) = false →
        fb2.buffer[i]? = fb.buffer[i]? ∧ zb2[i]? = zb[i]?) := by
  rw [compositeFragment_in_bounds ht] at h
  rcases hz : zb[i]? with _ | zv
  · rw [hz] at h; cases h
  · rw [hz] at h
    have hiz : i < zb.length := by
      by_contra hlt
      rw [List.getElem?_eq_none (Nat.le_of_not_lt hlt)] at hz
      cases hz
    have hzv : zAt zb i = zv := by unfold zAt; rw [hz]; rfl
    by_cases hd : flt frag.depth zv = true
    · rcases hsc : fb.set_current_color (F.toUsize frag.position.1)
          (F.toUsize frag.position.2) frag.color.to_hex with _ | fb3
      · rw [hsc] at h; simp [hd] at h
      · rw [hsc] at h
        simp only [hd, if_true, Option.map_some] at h
        cases h
        constructor
        · unfold zAt
          rw [List.getElem?_set_eq_of_lt _ hiz, hz]
          simp [dstep, hd]
        · intro hfail
          rw [hzv, hd] at hfail
          cases hfail
    · have hd2 : flt frag.depth zv = false := by simpa using hd
      simp only [hd2] at h
      simp only [Bool.false_eq_true, if_false] at h
      cases h
      refine ⟨?_, fun _ => ⟨rfl, hz⟩⟩
      rw [hzv]
      unfold dstep
      rw [hd2]
      simp [hzv]

lemma zAt_of_lt {zb : List F} {i : Nat} (h : i < zb.length) :
    zb[i]? = some (zAt zb i) := by
  unfold zAt
  rw [List.getElem?_eq_getElem h]
  rfl

lemma depthsAt_cons (width height i : Nat) (f : Fragment) (rest : List Fragment) :
    depthsAt width height i (f :: rest) =
      if targetIdx width height f = some i then f.depth :: depthsAt width height i rest
      else depthsAt width height i rest := by
  by_cases ht : targetIdx width height f = some i <;> simp [depthsAt, ht]

lemma compositeList_cons (fb : Framebuffer) (zb : List F) (f : Fragment)
    (rest : List Fragment) :
    compositeList fb zb (f :: rest) =
      (compositeFragment fb zb f).bind (fun p => compositeList p.1 p.2 rest) := rfl

/-- A successful composite run preserves the dimensions of both
buffers. -/
lemma compositeList_dims {fb fb2 : Framebuffer} {zb zb2 : List F} {frags : List Fragment}
    (h : compositeList fb zb frags = some (fb2, zb2)) :
    fb2.width = fb.width ∧ fb2.height = fb.height ∧
      fb2.buffer.length = fb.buffer.length ∧ zb2.length = zb.length := by
  induction frags generalizing fb zb with
  | nil =>
    cases h
    exact ⟨rfl, rfl, rfl, rfl⟩
  | cons f rest ih =>
    rw [compositeList_cons] at h
    rcases hs : compositeFragment fb zb f with _ | p
    · rw [hs, Option.none_bind] at h; cases h
    · rw [hs, Option.some_bind] at h
      obtain ⟨hw, hh, hbl, hzl⟩ := compositeFragment_dims hs
      obtain ⟨hw2, hh2, hbl2, hzl2⟩ := ih h
      exact ⟨hw2.trans hw, hh2.trans hh, hbl2.trans hbl, hzl2.trans hzl⟩

/-- Under the length preconditions the composite run succeeds. -/
lemma compositeList_total {fb : Framebuffer} {zb : List F} (frags : List Fragment)
    (hfb : fb.buffer.length = fb.width * fb.height)
    (hzb : fb.width * fb.height ≤ zb.length) :
    ∃ fb2 zb2, compositeList fb zb frags = some (fb2, zb2) := by
  induction frags generalizing fb zb with
  | nil => exact ⟨fb, zb, rfl⟩
  | cons f rest ih =>
    obtain ⟨fb2, zb2, hs⟩ := compositeFragment_total f hfb hzb
    obtain ⟨hw, hh, hbl, hzl⟩ := compositeFragment_dims hs
    obtain ⟨fb3, zb3, hrest⟩ := @ih fb2 zb2
      (by rw [hbl, hw, hh]; exact hfb) (by rw [hw, hh, hzl]; exact hzb)
    refine ⟨fb3, zb3, ?_⟩
    rw [compositeList_cons, hs, Option.some_bind]
    exact hrest

/-- Frame effect of a composite run at one pixel index: when every
fragment of the run that addresses the index fails the depth test
against the value stored there at the start (equivalently, at any time:
stored depths only decrease), both buffers are unchanged there. -/
lemma compositeList_unchanged {fb fb2 : Framebuffer} {zb zb2 : List F}
    {frags : List Fragment} {i : Nat}
    (h : compositeList fb zb frags = some (fb2, zb2))
    (hfail : ∀ f ∈ frags, targetIdx fb.width fb.height f = some i →
      flt f.depth (zAt zb i) = false) :
    fb2.buffer[i]? = fb.buffer[i]? ∧ zb2[i]? = zb[i]? := by
  induction frags generalizing fb zb with
  | nil =>
    cases h
    exact ⟨rfl, rfl⟩
  | cons f rest ih =>
    rw [compositeList_cons] at h
    rcases hs : compositeFragment fb zb f with _ | p
    · rw [hs, Option.none_bind] at h; cases h
    · rw [hs, Option.some_bind] at h
      obtain ⟨hw, hh, hbl, hzl⟩ := compositeFragment_dims hs
      have hstep : p.1.buffer[i]? = fb.buffer[i]? ∧ p.2[i]? = zb[i]? := by
        by_cases ht : targetIdx fb.width fb.height f = some i
        · exact (compositeFragment_touched hs ht).2 (hfail f (by simp) ht)
        · exact compositeFragment_untouched hs ht
      have hz2 : zAt p.2 i = zAt zb i := by unfold zAt; rw [hstep.2]
      have hrest := ih h (fun g hg htg => by
        rw [hz2]
        exact hfail g (by simp [hg]) (by rw [← hw, ← hh]; exact htg))
      exact ⟨hrest.1.trans hstep.1, hrest.2.trans hstep.2⟩

/-- The z-buffer value a composite run leaves at a pixel index is the
strict-less-than fold of the depths of the fragments addressing that
index over the initial value. -/
lemma compositeList_zAt {fb fb2 : Framebuffer} {zb zb2 : List F} {frags : List Fragment}
    (h : compositeList fb zb frags = some (fb2, zb2)) (i : Nat) :
    zAt zb2 i = (depthsAt fb.width fb.height i frags).foldl dstep (zAt zb i) := by
  induction frags generalizing fb zb with
  | nil =>
    cases h
    simp [depthsAt]
  | cons f rest ih =>
    rw [compositeList_cons] at h
    rcases hs : compositeFragment fb zb f with _ | p
    · rw [hs, Option.none_bind] at h; cases h
    · rw [hs, Option.some_bind] at h
      obtain ⟨hw, hh, hbl, hzl⟩ := compositeFragment_dims hs
      rw [depthsAt_cons]
      by_cases ht : targetIdx fb.width fb.height f = some i
      · rw [if_pos ht]
        have hstep := (compositeFragment_touched hs ht).1
        have := ih h
        rw [hw, hh] at this
        rw [this, hstep]
        rfl
      · rw [if_neg ht]
        have hstep := compositeFragment_untouched hs ht
        have hz2 : zAt p.2 i = zAt zb i := by unfold zAt; rw [hstep.2]
        have := ih h
        rw [hw, hh] at this
        rw [this, hz2]

lemma compositeList_append (fb : Framebuffer) (zb : List F) (l1 l2 : List Fragment) :
    compositeList fb zb (l1 ++ l2) =
      (compositeList fb zb l1).bind (fun p => compositeList p.1 p.2 l2) := by
  induction l1 generalizing fb zb with
  | nil => rfl
  | cons f rest ih =>
    rw [List.cons_append, compositeList_cons, compositeList_cons]
    rcases compositeFragment fb zb f with _ | p
    · rfl
    · show compositeList p.1 p.2 (rest ++ l2) = _
      rw [ih p.1 p.2]
      rfl

lemma renderGroups_eq (fb : Framebuffer) (zb : List F)
    (gs : List (Vertex × Vertex × Vertex)) :
    renderGroups fb zb gs =
      compositeList fb zb ((gs.map (fun g => triangle g.1 g.2.1 g.2.2)).flatten) := by
  induction gs generalizing fb zb with
  | nil => rfl
  | cons g rest ih =>
    show renderGroups fb zb (g :: rest) = _
    unfold renderGroups
    rw [List.map_cons, List.flatten_cons, compositeList_append]
    rcases hs : compositeList fb zb (triangle g.1 g.2.1 g.2.2) with _ | ⟨fb2, zb2⟩
    · rfl
    · exact ih fb2 zb2

/-- render is the composite run over the full fragment list the frame
produces. -/
lemma render_eq_compositeList (fb : Framebuffer) (zb : List F) (u : Uniforms)
    (vertex_array : List Vertex) :
    render fb zb u vertex_array = compositeList fb zb (renderFragments u vertex_array) := by
  unfold render renderFragments
  exact renderGroups_eq fb zb _

lemma triangleGroups_cons3 (a b c : Vertex) (t : List Vertex) :
    triangleGroups (a :: b :: c :: t) = (a, b, c) :: triangleGroups t := by
  simp [triangleGroups, chunks3]

lemma triangleGroups_length : ∀ l : List Vertex, (triangleGroups l).length = l.length / 3
  | [] => rfl
  | [_] => by simp [triangleGroups, chunks3]
  | [_, _] => by simp [triangleGroups, chunks3]
  | a :: b :: c :: t => by
    rw [triangleGroups_cons3, List.length_cons, triangleGroups_length t]
    simp only [List.length_cons]
    omega

lemma triangleGroups_get : ∀ (l : List Vertex) (k : Nat) (a b c : Vertex),
    l[3 * k]? = some a → l[3 * k + 1]? = some b → l[3 * k + 2]? = some c →
    (triangleGroups l)[k]? = some (a, b, c)
  | [], k, a, b, c => by simp
  | [x], k, a, b, c => by
    intro _ _ h3
    rw [List.getElem?_eq_none (by simp)] at h3
    cases h3
  | [x, y], k, a, b, c => by
    intro _ _ h3
    rw [List.getElem?_eq_none (by simp)] at h3
    cases h3
  | x :: y :: z :: t, k, a, b, c => by
    intro h1 h2 h3
    cases k with
    | zero =>
      simp only [Nat.mul_zero, Nat.zero_add] at h1 h2 h3
      simp only [List.getElem?_cons_zero, Option.some.injEq] at h1
      have h2b : (y :: z :: t)[0]? = some b := by simpa using h2
      have h3c : (z :: t)[0]? = some c := by simpa using h3
      simp only [List.getElem?_cons_zero, Option.some.injEq] at h2b h3c
      subst h1; subst h2b; subst h3c
      rw [triangleGroups_cons3]
      simp
    | succ k2 =>
      have e0 : 3 * (k2 + 1) = (3 * k2 + 2) + 1 := by ring
      have e1 : 3 * (k2 + 1) + 1 = (3 * k2 + 2) + 2 := by ring
      have e2 : 3 * (k2 + 1) + 2 = (3 * k2 + 2) + 3 := by ring
      rw [e0] at h1
      rw [e1] at h2
      rw [e2] at h3
      have h1b : t[3 * k2]? = some a := by
        simpa using h1
      have h2b : t[3 * k2 + 1]? = some b := by
        simpa using h2
      have h3b : t[3 * k2 + 2]? = some c := by
        simpa using h3
      rw [triangleGroups_cons3, List.getElem?_cons_succ]
      exact triangleGroups_get t k2 a b c h1b h2b h3b

/-- C4: render partitions the transformed vertex list into consecutive
groups of 3, rasterizes exactly one triangle per full group — exactly
floor(n/3) triangles for n input vertices — silently dropping a trailing
group of 1 or 2 transformed vertices, and the k-th rasterized group is
the transformed vertices at indices 3k, 3k+1, 3k+2. -/
theorem c4_triangle_grouping (u : Uniforms) (l : List Vertex) :
    (∀ fb zb, render fb zb u l = renderGroups fb zb (triangleGroups (transformedVertices u l))) ∧
    (triangleGroups (transformedVertices u l)).length = l.length / 3 ∧
    ∀ k a b c, l[3 * k]? = some a → l[3 * k + 1]? = some b → l[3 * k + 2]? = some c →
      (triangleGroups (transformedVertices u l))[k]? =
        some (transformVertex u a, transformVertex u b, transformVertex u c) := by
  refine ⟨fun fb zb => rfl, ?_, ?_⟩
  · rw [triangleGroups_length]
    simp [transformedVertices]
  · intro k a b c h1 h2 h3
    apply triangleGroups_get
    · unfold transformedVertices
      rw [List.getElem?_map, h1]
      rfl
    · unfold transformedVertices
      rw [List.getElem?_map, h2]
      rfl
    · unfold transformedVertices
      rw [List.getElem?_map, h3]
      rfl

/-- C4 witness: with 4 vertices exactly one triangle group is formed,
made of the first three transformed vertices; the 4th contributes
nothing. -/
theorem c4_triangle_grouping_witness :
    (([⟨⟨0,0,0⟩,⟨1,0,0⟩,⟨0,0,0⟩⟩, ⟨⟨1,0,0⟩,⟨0,1,0⟩,⟨0,0,0⟩⟩, ⟨⟨0,1,0⟩,⟨0,0,1⟩,⟨0,0,0⟩⟩,
        ⟨⟨2,2,2⟩,⟨1,1,1⟩,⟨0,0,0⟩⟩] : List Vertex)[3 * 0]? =
      some ⟨⟨0,0,0⟩,⟨1,0,0⟩,⟨0,0,0⟩⟩) ∧
    (triangleGroups (transformedVertices ⟨fun _ _ => 0⟩
        [⟨⟨0,0,0⟩,⟨1,0,0⟩,⟨0,0,0⟩⟩, ⟨⟨1,0,0⟩,⟨0,1,0⟩,⟨0,0,0⟩⟩, ⟨⟨0,1,0⟩,⟨0,0,1⟩,⟨0,0,0⟩⟩,
         ⟨⟨2,2,2⟩,⟨1,1,1⟩,⟨0,0,0⟩⟩])).length = 4 / 3 ∧
    (triangleGroups (transformedVertices ⟨fun _ _ => 0⟩
        [⟨⟨0,0,0⟩,⟨1,0,0⟩,⟨0,0,0⟩⟩, ⟨⟨1,0,0⟩,⟨0,1,0⟩,⟨0,0,0⟩⟩, ⟨⟨0,1,0⟩,⟨0,0,1⟩,⟨0,0,0⟩⟩,
         ⟨⟨2,2,2⟩,⟨1,1,1⟩,⟨0,0,0⟩⟩]))[0]? =
      some (transformVertex ⟨fun _ _ => 0⟩ ⟨⟨0,0,0⟩,⟨1,0,0⟩,⟨0,0,0⟩⟩,
            transformVertex ⟨fun _ _ => 0⟩ ⟨⟨1,0,0⟩,⟨0,1,0⟩,⟨0,0,0⟩⟩,
            transformVertex ⟨fun _ _ => 0⟩ ⟨⟨0,1,0⟩,⟨0,0,1⟩,⟨0,0,0⟩⟩) := by
  refine ⟨rfl, (c4_triangle_grouping ⟨fun _ _ => 0⟩ _).2.1, ?_⟩
  exact (c4_triangle_grouping ⟨fun _ _ => 0⟩ _).2.2 0 _ _ _ rfl rfl rfl

/-- C5: the transform stage maps each vertex to a vertex whose
transformed_position is the model matrix times the homogeneous
(position, 1) vector with the w component discarded, and whose position
and color are the input's, unchanged. -/
theorem c5_transform_stage (u : Uniforms) (l : List Vertex) (i : Nat) (v : Vertex)
    (hv : l[i]? = some v) :
    (transformedVertices u l)[i]? = some (transformVertex u v) ∧
    (transformVertex u v).position = v.position ∧
    (transformVertex u v).color = v.color ∧
    (transformVertex u v).transformed_position =
      Vec3.mk (Mat4.mulVec u.model_matrix (Vec4.mk v.position.x v.position.y v.position.z 1)).x
        (Mat4.mulVec u.model_matrix (Vec4.mk v.position.x v.position.y v.position.z 1)).y
        (Mat4.mulVec u.model_matrix (Vec4.mk v.position.x v.position.y v.position.z 1)).z := by
  refine ⟨?_, rfl, rfl, rfl⟩
  unfold transformedVertices
  rw [List.getElem?_map, hv]
  rfl

/-- C5 witness: the transform stage evaluated on a concrete vertex and a
concrete matrix. -/
theorem c5_transform_stage_witness :
    (([⟨⟨2,3,4⟩,⟨1,0,0⟩,⟨0,0,0⟩⟩] : List Vertex)[0]? = some ⟨⟨2,3,4⟩,⟨1,0,0⟩,⟨0,0,0⟩⟩) ∧
    (transformedVertices (Uniforms.new ⟨10,20,30⟩ 2 (fun i j => if i = j then 1 else 0))
        [⟨⟨2,3,4⟩,⟨1,0,0⟩,⟨0,0,0⟩⟩])[0]? =
      some (transformVertex (Uniforms.new ⟨10,20,30⟩ 2 (fun i j => if i = j then 1 else 0))
        ⟨⟨2,3,4⟩,⟨1,0,0⟩,⟨0,0,0⟩⟩) := by
  exact ⟨rfl, (c5_transform_stage (Uniforms.new ⟨10,20,30⟩ 2 (fun i j => if i = j then 1 else 0))
    [⟨⟨2,3,4⟩,⟨1,0,0⟩,⟨0,0,0⟩⟩] 0 ⟨⟨2,3,4⟩,⟨1,0,0⟩,⟨0,0,0⟩⟩ rfl).1⟩

/-- C8: a degenerate triangle — three vertices whose projected xy
positions have zero signed area (collinear) — produces the empty
fragment list, and the guard fires before any division happens. -/
theorem c8_degenerate_triangle (v1 v2 v3 : Vertex)
    (hcol : (v2.transformed_position.x - v1.transformed_position.x) *
        (v3.transformed_position.y - v1.transformed_position.y) -
      (v3.transformed_position.x - v1.transformed_position.x) *
        (v2.transformed_position.y - v1.transformed_position.y) = 0) :
    triangle v1 v2 v3 = [] := by
  simp only [triangle]
  rw [if_pos (by linear_combination hcol)]

/-- C8 witness: three collinear concrete vertices produce no
fragments. -/
theorem c8_degenerate_triangle_witness :
    ((⟨5,5,0⟩ : Vec3).x - (⟨1,1,0⟩ : Vec3).x) * ((⟨9,9,0⟩ : Vec3).y - (⟨1,1,0⟩ : Vec3).y) -
        ((⟨9,9,0⟩ : Vec3).x - (⟨1,1,0⟩ : Vec3).x) * ((⟨5,5,0⟩ : Vec3).y - (⟨1,1,0⟩ : Vec3).y) = 0 ∧
      triangle ⟨⟨0,0,0⟩,⟨1,0,0⟩,⟨1,1,0⟩⟩ ⟨⟨0,0,0⟩,⟨0,1,0⟩,⟨5,5,0⟩⟩
        ⟨⟨0,0,0⟩,⟨0,0,1⟩,⟨9,9,0⟩⟩ = [] := by
  refine ⟨by norm_num, ?_⟩
  exact c8_degenerate_triangle ⟨⟨0,0,0⟩,⟨1,0,0⟩,⟨1,1,0⟩⟩ ⟨⟨0,0,0⟩,⟨0,1,0⟩,⟨5,5,0⟩⟩
    ⟨⟨0,0,0⟩,⟨0,0,1⟩,⟨9,9,0⟩⟩ (by norm_num)

/-- C1: for an in-bounds fragment the composite step compares the
fragment depth against the z-buffer entry with strict less-than; exactly
on success it writes the depth into the z-buffer and the packed colour
into the framebuffer at that pixel, otherwise it changes neither buffer;
in particular a fragment whose depth equals the stored depth changes
nothing, keeping the earlier-processed fragment on ties. -/
theorem c1_composite_depth_test (fb : Framebuffer) (zb : List F) (frag : Fragment)
    (i : Nat) (ht : targetIdx fb.width fb.height frag = some i)
    (zv : F) (hz : zb[i]? = some zv) (hb : i < fb.buffer.length) :
    (flt frag.depth zv = true →
      compositeFragment fb zb frag =
        some ({ fb with buffer := fb.buffer.set i frag.color.to_hex },
          zb.set i frag.depth)) ∧
    (flt frag.depth zv = false → compositeFragment fb zb frag = some (fb, zb)) ∧
    (frag.depth = zv → compositeFragment fb zb frag = some (fb, zb)) := by
  refine ⟨fun hd => compositeFragment_pass ht hz hd hb,
    fun hd => compositeFragment_fail ht hz hd, fun he => ?_⟩
  exact compositeFragment_fail ht hz (by rw [he]; exact flt_irrefl zv)

/-- C1 witness: a passing fragment at pixel (1, 0) of a 2x2 buffer, and
a tie fragment that is discarded. -/
theorem c1_composite_depth_test_witness :
    (targetIdx 2 2 ⟨(F.fin 1, F.fin 0), F.fin 5, ⟨1, 1, 1⟩⟩ = some 1) ∧
    ([F.pinf, F.fin 5, F.pinf, F.pinf][1]? = some (F.fin 5)) ∧
    compositeFragment (Framebuffer.new 2 2) [F.pinf, F.fin 5, F.pinf, F.pinf]
        ⟨(F.fin 1, F.fin 0), F.fin 5, ⟨1, 1, 1⟩⟩ =
      some (Framebuffer.new 2 2, [F.pinf, F.fin 5, F.pinf, F.pinf]) := by
  refine ⟨by decide, rfl, ?_⟩
  exact ((c1_composite_depth_test (Framebuffer.new 2 2) [F.pinf, F.fin 5, F.pinf, F.pinf]
    ⟨(F.fin 1, F.fin 0), F.fin 5, ⟨1, 1, 1⟩⟩ 1 (by decide) (F.fin 5) rfl
    (by simp [Framebuffer.new])).2.2) rfl

/-- C7: a fragment with NaN depth never passes the strict less-than
depth test, whatever is stored at its pixel, so it changes neither
buffer and the composite step does not fail on it (given the z-buffer
covers the framebuffer area, as main allocates it). -/
theorem c7_nan_depth_never_passes (fb : Framebuffer) (zb : List F) (frag : Fragment)
    (hzb : fb.width * fb.height ≤ zb.length) (hnan : frag.depth = F.nan) :
    compositeFragment fb zb frag = some (fb, zb) := by
  rcases ht : targetIdx fb.width fb.height frag with _ | i
  · exact compositeFragment_oob ht
  · have hi : i < zb.length := lt_of_lt_of_le (targetIdx_lt_area ht) hzb
    exact compositeFragment_fail ht (zAt_of_lt hi) (by rw [hnan]; exact flt_nan_left _)

/-- C7 witness: a NaN-depth fragment aimed at the middle of a 3x3
buffer whose stored depth is even -inf changes nothing. -/
theorem c7_nan_depth_never_passes_witness :
    (3 * 3 ≤ (List.replicate 9 F.ninf).length) ∧
    compositeFragment (Framebuffer.new 3 3) (List.replicate 9 F.ninf)
        ⟨(F.fin 1, F.fin 1), F.nan, ⟨1, 0, 0⟩⟩ =
      some (Framebuffer.new 3 3, List.replicate 9 F.ninf) := by
  refine ⟨by simp, ?_⟩
  exact c7_nan_depth_never_passes (Framebuffer.new 3 3) (List.replicate 9 F.ninf)
    ⟨(F.fin 1, F.fin 1), F.nan, ⟨1, 0, 0⟩⟩ (by decide) rfl

/-- C3 counterexample: the claim "a fragment with a negative x or y
coordinate contributes to no pixel" is false on the code. The cast
`fragment.position.x as usize` saturates a negative coordinate to 0, so
a fragment at x = -1, y = 1 passes the bounds check as pixel (0, 1) of a
3x3 framebuffer and overwrites it: both buffers change. -/
theorem c3_negative_coordinate_counterexample :
    compositeFragment { width := 3, height := 3, buffer := List.replicate 9 5 }
        (List.replicate 9 F.pinf) ⟨(F.fin (-1), F.fin 1), F.fin 0, ⟨0, 0, 0⟩⟩ =
      some ({ width := 3, height := 3, buffer := [5, 5, 5, 0, 5, 5, 5, 5, 5] },
            [F.pinf, F.pinf, F.pinf, F.fin 0, F.pinf, F.pinf, F.pinf, F.pinf, F.pinf]) ∧
    ({ width := 3, height := 3, buffer := [5, 5, 5, 0, 5, 5, 5, 5, 5] } : Framebuffer) ≠
      { width := 3, height := 3, buffer := List.replicate 9 5 } ∧
    ([F.pinf, F.pinf, F.pinf, F.fin 0, F.pinf, F.pinf, F.pinf, F.pinf, F.pinf] : List F) ≠
      List.replicate 9 F.pinf := by
  refine ⟨by decide, by decide, by decide⟩

/-- C3 amended: a fragment whose usize-cast coordinates land at or
beyond the framebuffer width or height is discarded silently — neither
buffer changes and no panic occurs; but the cast saturates, so a
negative (or NaN) coordinate becomes 0 rather than out of bounds, and
such a fragment addresses column or row 0 and may write a border
pixel. -/
theorem c3_out_of_bounds_amended (fb : Framebuffer) (zb : List F) (frag : Fragment)
    (h : fb.width ≤ F.toUsize frag.position.1 ∨ fb.height ≤ F.toUsize frag.position.2) :
    compositeFragment fb zb frag = some (fb, zb) ∧
    ∀ q : ℚ, q < 0 → F.toUsize (F.fin q) = 0 := by
  constructor
  · apply compositeFragment_oob
    unfold targetIdx
    rw [if_neg]
    rcases h with h | h
    · exact fun hc => absurd hc.1 (Nat.not_lt_of_le h)
    · exact fun hc => absurd hc.2 (Nat.not_lt_of_le h)
  · intro q hq
    simp [F.toUsize, le_of_lt hq]

/-- C3 amended witness: a fragment at x = 7 beyond a 3-wide buffer is
discarded without touching either buffer. -/
theorem c3_out_of_bounds_amended_witness :
    ((3 : Nat) ≤ F.toUsize (F.fin 7) ∨ (3 : Nat) ≤ F.toUsize (F.fin 0)) ∧
    compositeFragment (Framebuffer.new 3 3) (List.replicate 9 F.pinf)
        ⟨(F.fin 7, F.fin 0), F.fin 0, ⟨1, 1, 1⟩⟩ =
      some (Framebuffer.new 3 3, List.replicate 9 F.pinf) := by
  refine ⟨Or.inl (by decide), ?_⟩
  exact (c3_out_of_bounds_amended (Framebuffer.new 3 3) (List.replicate 9 F.pinf)
    ⟨(F.fin 7, F.fin 0), F.fin 0, ⟨1, 1, 1⟩⟩ (Or.inl (by decide))).1

lemma depthsAt_mem {width height i : Nat} {frags : List Fragment} {d : F}
    (h : d ∈ depthsAt width height i frags) :
    ∃ f ∈ frags, targetIdx width height f = some i ∧ f.depth = d := by
  unfold depthsAt at h
  rw [List.mem_filterMap] at h
  obtain ⟨f, hf, he⟩ := h
  by_cases ht : targetIdx width height f = some i
  · rw [if_pos ht] at he
    cases he
    exact ⟨f, hf, ht, rfl⟩
  · rw [if_neg ht] at he
    cases he

lemma eq_pinf_of_fle_pinf {d : F} (h : fle F.pinf d = true) : d = F.pinf := by
  cases d <;> simp_all [fle, flt]

/-- C6: Uniforms::new composes the model matrix as translation times
rotation times uniform scaling, in exactly that order; acting on a
homogeneous point this scales first, rotates second and translates
last. -/
theorem c6_uniforms_trs (t : Vec3) (s : ℚ) (R : Mat4)
    (hr0 : R 3 0 = 0) (hr1 : R 3 1 = 0) (hr2 : R 3 2 = 0) (hr3 : R 3 3 = 1)
    (hc0 : R 0 3 = 0) (hc1 : R 1 3 = 0) (hc2 : R 2 3 = 0) :
    (Uniforms.new t s R).model_matrix =
      Mat4.mul (Mat4.mul (Mat4.new_translation t) R) (Mat4.new_nonuniform_scaling s s s) ∧
    ∀ p : Vec3,
      Mat4.mulVec (Uniforms.new t s R).model_matrix (Vec4.mk p.x p.y p.z 1) =
        Vec4.mk (t.x + (R 0 0 * (s * p.x) + R 0 1 * (s * p.y) + R 0 2 * (s * p.z)))
          (t.y + (R 1 0 * (s * p.x) + R 1 1 * (s * p.y) + R 1 2 * (s * p.z)))
          (t.z + (R 2 0 * (s * p.x) + R 2 1 * (s * p.y) + R 2 2 * (s * p.z))) 1 := by
  refine ⟨rfl, fun p => ?_⟩
  simp [Uniforms.new, Mat4.mul, Mat4.mulVec, Mat4.new_translation,
    Mat4.new_nonuniform_scaling, Vec4.mk.injEq, hr0, hr1, hr2, hr3, hc0, hc1, hc2]
  refine ⟨by ring, by ring, by ring⟩

/-- C6 witness: the composition evaluated with the identity as rotation
matrix. -/
theorem c6_uniforms_trs_witness :
    (((fun i j => if i = j then 1 else 0) : Mat4) 3 0 = 0 ∧
     ((fun i j => if i = j then 1 else 0) : Mat4) 3 3 = 1) ∧
    (Uniforms.new ⟨1, 2, 3⟩ 2 (fun i j => if i = j then 1 else 0)).model_matrix =
      Mat4.mul (Mat4.mul (Mat4.new_translation ⟨1, 2, 3⟩) (fun i j => if i = j then 1 else 0))
        (Mat4.new_nonuniform_scaling 2 2 2) := by
  refine ⟨⟨by simp, by simp⟩, ?_⟩
  exact (c6_uniforms_trs ⟨1, 2, 3⟩ 2 (fun i j => if i = j then 1 else 0)
    (by simp) (by simp) (by simp) (by simp)
    (by simp) (by simp) (by simp)).1

/-- C10: the implicit precondition of render. The z-buffer is indexed at
y*width+x guarded only by the framebuffer bounds check, so whenever the
z-buffer is at least width*height long and the framebuffer holds
width*height pixels — exactly what main allocates — every buffer access
of render is in bounds and render completes without a panic. -/
theorem c10_render_no_panic (fb : Framebuffer) (zb : List F) (u : Uniforms)
    (l : List Vertex) (hfb : fb.buffer.length = fb.width * fb.height)
    (hzb : fb.width * fb.height ≤ zb.length) :
    ∃ r, render fb zb u l = some r := by
  rw [render_eq_compositeList]
  obtain ⟨fb2, zb2, h⟩ := compositeList_total (renderFragments u l) hfb hzb
  exact ⟨(fb2, zb2), h⟩

/-- C10 witness: render succeeds on buffers allocated exactly as main
does for a 2x2 frame. -/
theorem c10_render_no_panic_witness :
    ((Framebuffer.new 2 2).buffer.length =
      (Framebuffer.new 2 2).width * (Framebuffer.new 2 2).height) ∧
    ((Framebuffer.new 2 2).width * (Framebuffer.new 2 2).height ≤
      (List.replicate 4 F.pinf).length) ∧
    ∃ r, render (Framebuffer.new 2 2) (List.replicate 4 F.pinf) ⟨fun _ _ => 0⟩
      [⟨⟨0,0,0⟩,⟨0,0,0⟩,⟨0,0,0⟩⟩, ⟨⟨1,0,0⟩,⟨0,0,0⟩,⟨0,0,0⟩⟩,
       ⟨⟨0,1,0⟩,⟨0,0,0⟩,⟨0,0,0⟩⟩] = some r := by
  refine ⟨by decide, by decide, ?_⟩
  exact c10_render_no_panic (Framebuffer.new 2 2) (List.replicate 4 F.pinf) ⟨fun _ _ => 0⟩
    [⟨⟨0,0,0⟩,⟨0,0,0⟩,⟨0,0,0⟩⟩, ⟨⟨1,0,0⟩,⟨0,0,0⟩,⟨0,0,0⟩⟩, ⟨⟨0,1,0⟩,⟨0,0,0⟩,⟨0,0,0⟩⟩]
    (by decide) (by decide)

/-- C9: frame effect of render. At every pixel index where no produced
fragment passes the depth test (since stored depths only decrease during
the frame, passing at some point of the loop is equivalent to passing
against the initial stored value), the framebuffer pixel and the
z-buffer entry after render equal their values before: render never
clears or resets any untouched location. -/
theorem c9_frame_effect (fb : Framebuffer) (zb : List F) (u : Uniforms)
    (l : List Vertex) (fb2 : Framebuffer) (zb2 : List F)
    (hrun : render fb zb u l = some (fb2, zb2)) (i : Nat)
    (hfail : ∀ f ∈ renderFragments u l, targetIdx fb.width fb.height f = some i →
      flt f.depth (zAt zb i) = false) :
    fb2.buffer[i]? = fb.buffer[i]? ∧ zb2[i]? = zb[i]? := by
  rw [render_eq_compositeList] at hrun
  exact compositeList_unchanged hrun hfail

/-- C9 witness: a render call over an empty vertex list leaves both
buffers unchanged at pixel 0. -/
theorem c9_frame_effect_witness :
    (render (Framebuffer.new 2 2) (List.replicate 4 F.pinf) ⟨fun _ _ => 0⟩ [] =
      some (Framebuffer.new 2 2, List.replicate 4 F.pinf)) ∧
    (Framebuffer.new 2 2).buffer[0]? = (Framebuffer.new 2 2).buffer[0]? ∧
      (List.replicate 4 F.pinf)[0]? = (List.replicate 4 F.pinf)[0]? := by
  refine ⟨rfl, ?_⟩
  refine c9_frame_effect (Framebuffer.new 2 2) (List.replicate 4 F.pinf) ⟨fun _ _ => 0⟩ []
    (Framebuffer.new 2 2) (List.replicate 4 F.pinf) rfl 0 ?_
  intro f hf
  simp [renderFragments, transformedVertices, triangleGroups, chunks3] at hf

/-- C2: depth-buffer minimality. Starting from a +infinity entry, after
compositing any prefix of the fragments a render call produces (the
whole list for the completed call, a proper prefix for an intermediate
point of the composite loop), the stored depth at a pixel is the minimum
of the depths of the non-NaN fragments of that prefix that addressed the
pixel, and still +infinity when none did; render composites exactly that
fragment list. -/
theorem c2_depth_minimality (fb : Framebuffer) (zb : List F) (u : Uniforms)
    (l : List Vertex) (i : Nat) (n : Nat) (fb2 : Framebuffer) (zb2 : List F)
    (hz0 : zb[i]? = some F.pinf)
    (hrun : compositeList fb zb ((renderFragments u l).take n) = some (fb2, zb2))
    (hnan : ∀ f ∈ (renderFragments u l).take n,
      targetIdx fb.width fb.height f = some i → f.depth ≠ F.nan) :
    (render fb zb u l = compositeList fb zb (renderFragments u l)) ∧
    (depthsAt fb.width fb.height i ((renderFragments u l).take n) = [] →
      zb2[i]? = some F.pinf) ∧
    (depthsAt fb.width fb.height i ((renderFragments u l).take n) ≠ [] →
      ∃ m, zb2[i]? = some m ∧
        m ∈ depthsAt fb.width fb.height i ((renderFragments u l).take n) ∧
        ∀ d ∈ depthsAt fb.width fb.height i ((renderFragments u l).take n),
          fle m d = true) := by
  have hlen : i < zb.length := by
    by_contra hlt
    rw [List.getElem?_eq_none (Nat.le_of_not_lt hlt)] at hz0
    cases hz0
  have hzAt : zAt zb i = F.pinf := by
    unfold zAt
    rw [hz0]
    rfl
  have hfold := compositeList_zAt hrun i
  rw [hzAt] at hfold
  have hdims := compositeList_dims hrun
  have hlen2 : i < zb2.length := by
    rw [hdims.2.2.2]
    exact hlen
  have hsome : zb2[i]? = some (zAt zb2 i) := zAt_of_lt hlen2
  have hds_nonan : ∀ d ∈ depthsAt fb.width fb.height i ((renderFragments u l).take n),
      d ≠ F.nan := by
    intro d hd
    obtain ⟨f, hf, ht, he⟩ := depthsAt_mem hd
    rw [← he]
    exact hnan f hf ht
  refine ⟨render_eq_compositeList fb zb u l, fun hemp => ?_, fun hne => ?_⟩
  · rw [hsome, hfold, hemp]
    rfl
  · obtain ⟨hmem, hlep, hall⟩ := foldl_dstep_general
      (depthsAt fb.width fb.height i ((renderFragments u l).take n)) F.pinf
      (by simp) hds_nonan
    refine ⟨(depthsAt fb.width fb.height i ((renderFragments u l).take n)).foldl dstep F.pinf,
      by rw [hsome, hfold], ?_, hall⟩
    rcases hmem with hm | hm
    · obtain ⟨d0, hd0⟩ := List.exists_mem_of_ne_nil _ hne
      have := hall d0 hd0
      rw [hm] at this ⊢
      rw [eq_pinf_of_fle_pinf this] at hd0
      exact hd0
    · exact hm

/-- C2 witness: an empty prefix over a +infinity entry leaves the entry
at +infinity. -/
theorem c2_depth_minimality_witness :
    (([F.pinf] : List F)[0]? = some F.pinf) ∧
    (depthsAt 1 1 0 ((renderFragments ⟨fun _ _ => 0⟩ []).take 0) = []) ∧
    ∀ fb2 zb2, compositeList (Framebuffer.new 1 1) [F.pinf]
        ((renderFragments ⟨fun _ _ => 0⟩ []).take 0) = some (fb2, zb2) →
      zb2[0]? = some F.pinf := by
  refine ⟨rfl, rfl, fun fb2 zb2 h => ?_⟩
  exact (c2_depth_minimality (Framebuffer.new 1 1) [F.pinf] ⟨fun _ _ => 0⟩ [] 0 0 fb2 zb2
    rfl h (by simp)).2.1 rfl

end Rasterizer
